import Mathlib

/-!
Shallow embedding of the Auto Archive plugin core (src/main.ts) and proofs about it.

Store paths (JS strings) are modelled as lists of characters.  The Obsidian vault
collaborator (path-addressed lookup, copy, delete, folder create/delete) is modelled
from the spec §6 contract as a flat store of file entries and folder paths; the
plugin's own functions are translated from src/main.ts line by line.
-/

namespace AutoArchive

/-- Store paths are JS strings, modelled as lists of characters. -/
abbrev Path := List Char

/-- JS String.prototype.trim: drop whitespace from both ends.  (JS trims a slightly
larger Unicode whitespace set than Char.isWhitespace; the difference is irrelevant
for the ASCII paths considered here.) -/
def jsTrim (s : Path) : Path :=
  ((s.dropWhile Char.isWhitespace).reverse.dropWhile Char.isWhitespace).reverse

/-- The loop of joinPaths (main.ts:187-189): while the string ends with "/",
drop the last character. -/
def stripTrailingSlashes (s : Path) : Path :=
  (s.reverse.dropWhile (fun c => decide (c = '/'))).reverse

/-- The loop of joinPaths (main.ts:192-194): while the string starts with "/",
drop the first character. -/
def stripLeadingSlashes (s : Path) : Path :=
  s.dropWhile (fun c => decide (c = '/'))

/-- joinPaths (main.ts:185-208): trim both arguments, strip trailing slashes from
the first and leading/trailing slashes from the second, then join on "/" with the
empty cases handled first. -/
def joinPaths (p1 p2 : Path) : Path :=
  let p1Trimmed := stripTrailingSlashes (jsTrim p1)
  let p2Trimmed := stripTrailingSlashes (stripLeadingSlashes (jsTrim p2))
  if p1Trimmed = [] ∧ p2Trimmed = [] then []
  else if p1Trimmed = [] then p2Trimmed
  else if p2Trimmed = [] then p1Trimmed
  else p1Trimmed ++ '/' :: p2Trimmed

/-- JS String.prototype.startsWith on character lists. -/
def listStartsWith : Path → Path → Bool
  | _, [] => true
  | [], _ :: _ => false
  | c :: s, p :: ps => decide (c = p) && listStartsWith s ps

/-- JS String.prototype.endsWith on character lists. -/
def endsWithL (s suffixChars : Path) : Bool :=
  listStartsWith s.reverse suffixChars.reverse

/-- JS String.prototype.replace with a string pattern and empty replacement:
remove the first occurrence of `pat` (the string is returned unchanged when `pat`
does not occur; an empty pattern matches at position 0 and removes nothing). -/
def removeFirstOcc : Path → Path → Path
  | [], _ => []
  | c :: rest, pat =>
    if listStartsWith (c :: rest) pat then (c :: rest).drop pat.length
    else c :: removeFirstOcc rest pat

/-- getFilePathInSourceFolder (main.ts:217-219):
sourceFile.path.replace(archiveConfig.sourceFolder, "").  A textual first-occurrence
removal, not a prefix-anchored strip. -/
def getFilePathInSourceFolder (filePath sourceFolder : Path) : Path :=
  removeFirstOcc filePath sourceFolder

/-- JS String.prototype.split("/"): every maximal slash-free run, keeping empties. -/
def splitOnSlash : Path → List Path
  | [] => [[]]
  | c :: rest =>
    if c = '/' then [] :: splitOnSlash rest
    else
      match splitOnSlash rest with
      | [] => [[c]]
      | s :: ss => (c :: s) :: ss

/-- splitPathString (main.ts:227-229): split on "/" and discard empty segments. -/
def splitPathString (p : Path) : List Path :=
  (splitOnSlash p).filter (fun s => decide (s ≠ []))

/-- JS Array.prototype.join("/") on path segments (main.ts:165). -/
def joinWithSlash : List Path → Path
  | [] => []
  | [s] => s
  | s :: s2 :: rest => s ++ '/' :: joinWithSlash (s2 :: rest)

/-- path.slice(0, path.lastIndexOf("/")): everything before the last slash
(callers establish that a slash is present). -/
def beforeLastSlash (p : Path) : Path :=
  ((p.reverse.dropWhile (fun c => decide (c ≠ '/'))).drop 1).reverse

/-- getFolderFromPath (main.ts:239-251): a path not ending in ".md" is already a
folder path; a bare ".md" file name yields ""; otherwise the part before the last
slash. -/
def getFolderFromPath (p : Path) : Path :=
  if !endsWithL p ".md".toList then p
  else if '/' ∉ p then []
  else beforeLastSlash p

/-- TFile.name: the last path segment (the part after the final slash). -/
def nameOf (p : Path) : Path :=
  (p.reverse.takeWhile (fun c => decide (c ≠ '/'))).reverse

/-- Parent folder path of a store entry: the part before the final slash, or []
for a top-level entry.  Used to model TFolder.children membership. -/
def parentDir (p : Path) : Path :=
  if '/' ∈ p then beforeLastSlash p else []

/-- One user-configured archive rule (main.ts:4-10). -/
structure ArchiveConfig where
  sourceFolder : Path
  destFolder : Path
  maintainFolderStructure : Bool
  deleteEmptyFolders : Bool
  days : Int
  deriving DecidableEq

/-- A TFile: path plus creation timestamp in milliseconds (stat.ctime). -/
structure FileEntry where
  path : Path
  ctime : Int
  deriving DecidableEq

/-- The Obsidian vault, modelled from the spec §6 collaborator contract as a flat
store: file entries and folder paths. -/
structure Vault where
  files : List FileEntry
  folders : List Path
  deriving DecidableEq

/-- A file entry lives at path p. -/
abbrev fileExists (v : Vault) (p : Path) : Prop := p ∈ v.files.map FileEntry.path

/-- A folder lives at path p. -/
abbrev folderExists (v : Vault) (p : Path) : Prop := p ∈ v.folders

/-- vault.getAbstractFileByPath(p) resolves to some entity. -/
abbrev entryExists (v : Vault) (p : Path) : Prop := fileExists v p ∨ folderExists v p

def NUM_MS_IN_DAY : Int := 86400000

/-- shouldFileBeArchived (main.ts:129-135): createdDate < cutoffDate, comparing
millisecond clock values, with cutoff = now - NUM_MS_IN_DAY * days. -/
def shouldFileBeArchived (sourceFile : FileEntry) (cfg : ArchiveConfig) (now : Int) : Bool :=
  decide (sourceFile.ctime < now - NUM_MS_IN_DAY * cfg.days)

/-- vault.delete(file) on the source file (main.ts:100): remove it from the store. -/
def deleteFileAt (v : Vault) (p : Path) : Vault :=
  ⟨v.files.filter (fun f => decide (f.path ≠ p)), v.folders⟩

/-- vault.delete(entity) on a pre-existing destination entry (main.ts:94-97):
remove whichever entity lives at the path. -/
def deleteEntryAt (v : Vault) (p : Path) : Vault :=
  ⟨v.files.filter (fun f => decide (f.path ≠ p)), v.folders.filter (fun q => decide (q ≠ p))⟩

/-- An entry path equal to p or strictly inside the subtree rooted at p. -/
def underPath (q p : Path) : Bool :=
  decide (q = p) || listStartsWith q (p ++ ['/'])

/-- vault.delete(folder, true) (main.ts:170): recursive delete of a folder subtree. -/
def deleteFolderRec (v : Vault) (p : Path) : Vault :=
  ⟨v.files.filter (fun f => !underPath f.path p), v.folders.filter (fun q => !underPath q p)⟩

/-- copyFile (main.ts:259-265): vault.copy with every failure swallowed.  Modelled
from the spec §6 contract: the copy fails (and the failure is swallowed) when the
destination is already occupied or the source file is gone. -/
def copyFile (v : Vault) (f : FileEntry) (newFilePath : Path) : Vault :=
  if entryExists v newFilePath then v
  else if fileExists v f.path then ⟨v.files ++ [⟨newFilePath, f.ctime⟩], v.folders⟩
  else v

/-- Every folder path along a path: ancestorPaths "a/b/c" = ["a", "a/b", "a/b/c"]. -/
def ancestorPaths (p : Path) : List Path :=
  (List.range (splitPathString p).length).map
    (fun i => joinWithSlash ((splitPathString p).take (i + 1)))

/-- createFoldersInPath (main.ts:272-279): vault.createFolder(getFolderFromPath(p)).
Modelled from the spec §6 contract: creates every missing intermediate folder;
"already exists" failures are swallowed. -/
def createFoldersInPath (v : Vault) (fileOrFolderPath : Path) : Vault :=
  let target := getFolderFromPath fileOrFolderPath
  ⟨v.files, v.folders ++ (ancestorPaths target).filter (fun q => decide (q ∉ v.folders))⟩

/-- The destination path computed by processSourceFile (main.ts:82-92, inlined
there): structure-preserving uses the path relative to the source folder,
flattened uses the file name. -/
def computeDestPath (cfg : ArchiveConfig) (filePath : Path) : Path :=
  if cfg.maintainFolderStructure then
    joinPaths cfg.destFolder (getFilePathInSourceFolder filePath cfg.sourceFolder)
  else
    joinPaths cfg.destFolder (nameOf filePath)

/-- TFolder.children.length for the folder at p. -/
def childCount (v : Vault) (p : Path) : Nat :=
  (v.files.filter (fun f => decide (parentDir f.path = p))).length +
    (v.folders.filter (fun q => decide (parentDir q = p))).length

/-- One iteration of the prune loop body (main.ts:164-173): resolve
joinPaths(sourceFolder, parts.join("/")) and recursively delete it when it is a
folder with zero children. -/
def pruneVisit (v : Vault) (cfg : ArchiveConfig) (parts : List Path) : Vault :=
  let currDirPath := joinPaths cfg.sourceFolder (joinWithSlash parts)
  if folderExists v currDirPath ∧ childCount v currDirPath = 0 then
    deleteFolderRec v currDirPath
  else v

/-- The prune for-loop (main.ts:162-174): runs exactly numPathParts times, popping
the last segment after each visit. -/
def pruneLoop (cfg : ArchiveConfig) : Nat → Vault → List Path → Vault
  | 0, v, _ => v
  | n + 1, v, parts => pruneLoop cfg n (pruneVisit v cfg parts) parts.dropLast

/-- deleteEmptyFolders (main.ts:148-176): walk backwards through the folders
between the source folder and the archived file's old location, deleting each one
that is now empty; the source folder itself is never part of the walk. -/
def deleteEmptyFolders (v : Vault) (deletedFile : FileEntry) (cfg : ArchiveConfig) : Vault :=
  let filePathInSourceFolder := getFilePathInSourceFolder deletedFile.path cfg.sourceFolder
  let sourceFileFolderPath := getFolderFromPath filePathInSourceFolder
  let folderPathParts := splitPathString sourceFileFolderPath
  if folderPathParts.length > 0 then pruneLoop cfg folderPathParts.length v folderPathParts
  else v

/-- processSourceFile (main.ts:79-106).  The destination path is computed inline in
the source; createFoldersInPath runs only in the maintainFolderStructure branch,
then any existing destination entry is deleted, the file is copied (failures
swallowed), the source file is deleted, and the prune walk runs when configured. -/
def processSourceFile (v : Vault) (sourceFile : FileEntry) (cfg : ArchiveConfig) (now : Int) :
    Vault :=
  if shouldFileBeArchived sourceFile cfg now then
    let newFilePath := computeDestPath cfg sourceFile.path
    let v1 := if cfg.maintainFolderStructure then createFoldersInPath v newFilePath else v
    let v2 := if entryExists v1 newFilePath then deleteEntryAt v1 newFilePath else v1
    let v3 := copyFile v2 sourceFile newFilePath
    let v4 := deleteFileAt v3 sourceFile.path
    if cfg.deleteEmptyFolders then deleteEmptyFolders v4 sourceFile cfg else v4
  else v

/-- The validity test of getValidArchiveConfigs (main.ts:44-47): both folders are
non-empty after trimming. -/
def isValidConfig (c : ArchiveConfig) : Bool :=
  decide (0 < (jsTrim c.sourceFolder).length) && decide (0 < (jsTrim c.destFolder).length)

/-- getValidArchiveConfigs (main.ts:44-47). -/
def getValidArchiveConfigs (archiveConfigs : List ArchiveConfig) : List ArchiveConfig :=
  archiveConfigs.filter isValidConfig

/-- getMarkdownFilesInFolderRecursive (main.ts:108-120): collect the ".md" files of
the folder, recursing into subfolders.  The fuel bounds the recursion depth; a
descent chain visits folders with strictly lengthening paths, so fuel equal to the
number of folders in the vault suffices. -/
def getMarkdownFilesInFolderRecursive (v : Vault) (p : Path) : Nat → List FileEntry
  | 0 => []
  | fuel + 1 =>
    v.files.filter
        (fun f => decide (parentDir f.path = p) && endsWithL (nameOf f.path) ".md".toList) ++
      ((v.folders.filter (fun q => decide (parentDir q = p))).map
        (fun q => getMarkdownFilesInFolderRecursive v q fuel)).flatten

/-- One rule of processVault's loop (main.ts:57-70).  The second component collects
the logged warnings: the source folder of each rule that did not resolve to a
folder. -/
def processRule (s : Vault × List Path) (cfg : ArchiveConfig) (now : Int) :
    Vault × List Path :=
  if folderExists s.1 cfg.sourceFolder then
    ((getMarkdownFilesInFolderRecursive s.1 cfg.sourceFolder s.1.folders.length).foldl
        (fun v f => processSourceFile v f cfg now) s.1,
      s.2)
  else (s.1, s.2 ++ [cfg.sourceFolder])

/-- processVault (main.ts:53-71): process every valid rule in configured order. -/
def processVault (v : Vault) (archiveConfigs : List ArchiveConfig) (now : Int) :
    Vault × List Path :=
  (getValidArchiveConfigs archiveConfigs).foldl (fun s cfg => processRule s cfg now) (v, [])

/-- A well-formed path segment: non-empty, slash-free and whitespace-free. -/
abbrev cleanSeg (s : Path) : Prop :=
  s ≠ [] ∧ ∀ c ∈ s, c ≠ '/' ∧ Char.isWhitespace c = false

/-- A well-formed configured root folder path: non-empty, already trimmed, and
without trailing slashes. -/
abbrev cleanRoot (sf : Path) : Prop :=
  sf ≠ [] ∧ jsTrim sf = sf ∧ stripTrailingSlashes sf = sf

/-- The structure-preserving rule of the spec §8 test cases. -/
def exampleCfgMaintain : ArchiveConfig :=
  ⟨"Notes".toList, "Archive".toList, true, false, 30⟩

/-- The flattened rule of the spec §8 test cases. -/
def exampleCfgFlat : ArchiveConfig :=
  ⟨"Notes".toList, "Archive".toList, false, false, 30⟩

/-- The pruning rule of the spec §8 prune-walk test case. -/
def exampleCfgPrune : ArchiveConfig :=
  ⟨"Notes".toList, "Archive".toList, true, true, 30⟩

/-- The file of the spec §8 test cases, created at clock 0. -/
def exampleFile : FileEntry := ⟨"Notes/2023/December/31.md".toList, 0⟩

/-- A clock value one millisecond past the 30-day cutoff for exampleFile. -/
def exampleNow : Int := 86400000 * 30 + 1

/-- Vault for the structure-preserving move: the archive tree does not exist yet. -/
def exampleVaultMaintain : Vault :=
  ⟨[exampleFile], ["Notes".toList, "Notes/2023".toList, "Notes/2023/December".toList]⟩

/-- Vault for the flattened move: the archive folder already exists. -/
def exampleVaultFlat : Vault :=
  ⟨[exampleFile],
    ["Notes".toList, "Notes/2023".toList, "Notes/2023/December".toList, "Archive".toList]⟩

/-- Vault state right after exampleFile was archived: its old folder chain is empty. -/
def exampleVaultPruneA : Vault :=
  ⟨[],
    ["Notes".toList, "Notes/2023".toList, "Notes/2023/December".toList, "Archive".toList]⟩

/-- Vault state right after exampleFile was archived, with a sibling note keeping
"Notes/2023" non-empty. -/
def exampleVaultPruneB : Vault :=
  ⟨[⟨"Notes/2023/keep.md".toList, 0⟩],
    ["Notes".toList, "Notes/2023".toList, "Notes/2023/December".toList, "Archive".toList]⟩

lemma lsw_append (x y : Path) : listStartsWith (x ++ y) x = true := by
  induction x with
  | nil => cases y <;> rfl
  | cons c cs ih => simp [listStartsWith, ih]

lemma lsw_of_append (g y z : Path) (h : listStartsWith g (y ++ z) = true) :
    listStartsWith g y = true := by
  induction y generalizing g with
  | nil => cases g <;> rfl
  | cons a ys ih =>
    cases g with
    | nil => simp [listStartsWith] at h
    | cons b gs =>
      simp only [List.cons_append, listStartsWith, Bool.and_eq_true, decide_eq_true_eq] at h ⊢
      exact ⟨h.1, ih gs h.2⟩

lemma lsw_length (g pat : Path) (h : listStartsWith g pat = true) : pat.length ≤ g.length := by
  induction pat generalizing g with
  | nil => simp
  | cons a ps ih =>
    cases g with
    | nil => simp [listStartsWith] at h
    | cons b gs =>
      simp only [listStartsWith, Bool.and_eq_true] at h
      simpa using ih gs h.2

lemma dropWhile_head_false (q : Char → Bool) :
    ∀ (l : Path) (a : Char) (rest : Path), l.dropWhile q = a :: rest → q a = false := by
  intro l
  induction l with
  | nil => intro a rest h; simp at h
  | cons c cs ih =>
    intro a rest h
    by_cases hq : q c = true
    · rw [List.dropWhile_cons_of_pos hq] at h
      exact ih a rest h
    · rw [List.dropWhile_cons_of_neg hq] at h
      injection h with h1 h2
      subst h1
      simpa using hq

lemma dropWhile_idem (q : Char → Bool) (l : Path) :
    (l.dropWhile q).dropWhile q = l.dropWhile q := by
  cases h : l.dropWhile q with
  | nil => simp
  | cons a rest =>
    have ha : q a = false := dropWhile_head_false q l a rest h
    simp [List.dropWhile_cons, ha]

lemma dropWhile_all (q : Char → Bool) (l : Path) (h : ∀ c ∈ l, q c = true) :
    l.dropWhile q = [] := by
  induction l with
  | nil => rfl
  | cons c cs ih =>
    rw [List.dropWhile_cons_of_pos (h c (by simp))]
    exact ih (fun c hc => h c (by simp [hc]))

lemma dropWhile_none (q : Char → Bool) (l : Path) (h : ∀ c ∈ l, q c = false) :
    l.dropWhile q = l := by
  cases l with
  | nil => rfl
  | cons c cs =>
    rw [List.dropWhile_cons_of_neg]
    simp [h c (by simp)]

lemma mem_dropWhile (q : Char → Bool) (l : Path) (c : Char) (h : c ∈ l.dropWhile q) :
    c ∈ l := by
  induction l with
  | nil => simp at h
  | cons a rest ih =>
    by_cases ha : q a = true
    · rw [List.dropWhile_cons_of_pos ha] at h
      exact List.mem_cons_of_mem a (ih h)
    · rw [List.dropWhile_cons_of_neg (by simpa using ha)] at h
      exact h

lemma jsTrim_eq_self (l : Path) (h : ∀ c ∈ l, Char.isWhitespace c = false) : jsTrim l = l := by
  unfold jsTrim
  rw [dropWhile_none _ _ h, dropWhile_none, List.reverse_reverse]
  intro c hc
  exact h c (List.mem_reverse.mp hc)

lemma jsTrim_all_ws (w : Path) (hw : ∀ c ∈ w, Char.isWhitespace c = true) : jsTrim w = [] := by
  unfold jsTrim
  rw [dropWhile_all _ _ hw]
  rfl

lemma stripT_nil : stripTrailingSlashes [] = [] := rfl

lemma stripT_idem (l : Path) :
    stripTrailingSlashes (stripTrailingSlashes l) = stripTrailingSlashes l := by
  unfold stripTrailingSlashes
  rw [List.reverse_reverse, dropWhile_idem]

lemma stripT_none (l : Path) (h : ∀ c ∈ l, decide (c = '/') = false) :
    stripTrailingSlashes l = l := by
  unfold stripTrailingSlashes
  rw [dropWhile_none, List.reverse_reverse]
  intro c hc
  exact h c (List.mem_reverse.mp hc)

lemma stripL_none (l : Path) (h : ∀ c ∈ l, decide (c = '/') = false) :
    stripLeadingSlashes l = l := dropWhile_none _ l h

lemma stripT_append_slash (u w : Path) (hw : stripTrailingSlashes w = w) (hne : w ≠ []) :
    stripTrailingSlashes (u ++ '/' :: w) = u ++ '/' :: w := by
  obtain ⟨a, t, ht⟩ : ∃ a t, w.reverse = a :: t := by
    cases hw' : w.reverse with
    | nil => exact absurd (by simpa using congrArg List.reverse hw') hne
    | cons a t => exact ⟨a, t, rfl⟩
  have hdw : w.reverse.dropWhile (fun c => decide (c = '/')) = w.reverse := by
    have := congrArg List.reverse hw
    simpa [stripTrailingSlashes] using this
  have ha : decide (a = '/') = false := by
    exact dropWhile_head_false _ w.reverse a t (by rw [hdw, ht])
  unfold stripTrailingSlashes
  rw [List.reverse_append]
  have : ('/' :: w).reverse = a :: (t ++ ['/']) := by
    simp [List.reverse_cons, ht]
  rw [this]
  rw [show a :: (t ++ ['/']) ++ u.reverse = a :: (t ++ ['/'] ++ u.reverse) by simp]
  rw [List.dropWhile_cons_of_neg (by simpa using ha)]
  simp [List.reverse_cons, ht]
  rw [← List.reverse_reverse w, ht]
  simp

lemma joinPaths_clean (a b : Path)
    (ha1 : jsTrim a = a) (ha2 : stripTrailingSlashes a = a) (hane : a ≠ [])
    (hb1 : jsTrim b = b) (hb2 : stripLeadingSlashes b = b) (hb3 : stripTrailingSlashes b = b)
    (hbne : b ≠ []) :
    joinPaths a b = a ++ '/' :: b := by
  unfold joinPaths
  rw [ha1, ha2, hb1, hb2, hb3]
  simp [hane, hbne]

lemma stripT_joinPaths (a b : Path) :
    stripTrailingSlashes (joinPaths a b) = joinPaths a b := by
  unfold joinPaths
  set p1T := stripTrailingSlashes (jsTrim a) with h1
  set p2T := stripTrailingSlashes (stripLeadingSlashes (jsTrim b)) with h2
  have hp1 : stripTrailingSlashes p1T = p1T := by rw [h1]; exact stripT_idem _
  have hp2 : stripTrailingSlashes p2T = p2T := by rw [h2]; exact stripT_idem _
  by_cases e1 : p1T = [] <;> by_cases e2 : p2T = [] <;>
    simp [e1, e2, hp1, hp2, stripT_nil]
  exact stripT_append_slash p1T p2T hp2 e2

lemma joinPaths_nil_right (r : Path) (h1 : jsTrim r = r) (h2 : stripTrailingSlashes r = r) :
    joinPaths r [] = r := by
  unfold joinPaths
  rw [h1, h2]
  have hnil : stripTrailingSlashes (stripLeadingSlashes (jsTrim ([] : Path))) = [] := rfl
  rw [hnil]
  by_cases e : r = []
  · simp [e]
  · simp [e]

lemma splitOnSlash_ne_nil (l : Path) : splitOnSlash l ≠ [] := by
  cases l with
  | nil => simp [splitOnSlash]
  | cons c rest =>
    by_cases h : c = '/'
    · simp [splitOnSlash, h]
    · cases hs : splitOnSlash rest <;> simp [splitOnSlash, h, hs]

lemma splitOnSlash_mem (l : Path) :
    ∀ s ∈ splitOnSlash l, ∀ c ∈ s, c ≠ '/' ∧ c ∈ l := by
  induction l with
  | nil =>
    intro s hs
    simp [splitOnSlash] at hs
    simp [hs]
  | cons a rest ih =>
    intro s hs
    by_cases ha : a = '/'
    · rw [splitOnSlash] at hs
      simp only [if_pos ha, List.mem_cons] at hs
      rcases hs with h1 | h2
      · simp [h1]
      · intro c hc
        obtain ⟨h3, h4⟩ := ih s h2 c hc
        exact ⟨h3, by simp [h4]⟩
    · rw [splitOnSlash] at hs
      simp only [if_neg ha] at hs
      cases hsp : splitOnSlash rest with
      | nil => exact absurd hsp (splitOnSlash_ne_nil rest)
      | cons t ts =>
        rw [hsp, List.mem_cons] at hs
        rcases hs with h1 | h2
        · subst h1
          intro c hc
          rcases List.mem_cons.mp hc with h3 | h4
          · subst h3
            exact ⟨ha, by simp⟩
          · obtain ⟨h5, h6⟩ := ih t (by rw [hsp]; simp) c h4
            exact ⟨h5, by simp [h6]⟩
        · intro c hc
          obtain ⟨h5, h6⟩ := ih s (by rw [hsp]; simp [h2]) c hc
          exact ⟨h5, by simp [h6]⟩

lemma splitPathString_clean (p : Path) (hp : ∀ c ∈ p, Char.isWhitespace c = false) :
    ∀ s ∈ splitPathString p, cleanSeg s := by
  intro s hs
  have hmem := List.mem_filter.mp hs
  refine ⟨by simpa using hmem.2, ?_⟩
  intro c hc
  obtain ⟨h1, h2⟩ := splitOnSlash_mem p s hmem.1 c hc
  exact ⟨h1, hp c h2⟩

lemma jws_chars (parts : List Path) :
    ∀ c ∈ joinWithSlash parts, c = '/' ∨ ∃ s ∈ parts, c ∈ s := by
  induction parts with
  | nil => intro c hc; simp [joinWithSlash] at hc
  | cons s rest ih =>
    intro c hc
    cases rest with
    | nil =>
      rw [joinWithSlash] at hc
      exact Or.inr ⟨s, by simp, hc⟩
    | cons s2 rest2 =>
      rw [joinWithSlash] at hc
      rcases List.mem_append.mp hc with h1 | h2
      · exact Or.inr ⟨s, by simp, h1⟩
      · rcases List.mem_cons.mp h2 with h3 | h4
        · exact Or.inl h3
        · rcases ih c h4 with h5 | ⟨t, ht, hct⟩
          · exact Or.inl h5
          · exact Or.inr ⟨t, by simp [ht], hct⟩

lemma jws_ne_nil (parts : List Path) (hne : parts ≠ []) (h : ∀ s ∈ parts, cleanSeg s) :
    joinWithSlash parts ≠ [] := by
  cases parts with
  | nil => exact absurd rfl hne
  | cons s rest =>
    have hs : s ≠ [] := (h s (by simp)).1
    cases rest with
    | nil => rw [joinWithSlash]; exact hs
    | cons s2 rest2 =>
      rw [joinWithSlash]
      simp [hs]

lemma jws_clean (parts : List Path) (hne : parts ≠ []) (h : ∀ s ∈ parts, cleanSeg s) :
    jsTrim (joinWithSlash parts) = joinWithSlash parts ∧
      stripLeadingSlashes (joinWithSlash parts) = joinWithSlash parts ∧
      stripTrailingSlashes (joinWithSlash parts) = joinWithSlash parts := by
  have hchars : ∀ c ∈ joinWithSlash parts, Char.isWhitespace c = false := by
    intro c hc
    rcases jws_chars parts c hc with h1 | ⟨s, hsmem, hcs⟩
    · subst h1; decide
    · exact ((h s hsmem).2 c hcs).2
  refine ⟨jsTrim_eq_self _ hchars, ?_, ?_⟩
  · cases parts with
    | nil => exact absurd rfl hne
    | cons s rest =>
      obtain ⟨a, t, rfl⟩ : ∃ a t, s = a :: t := by
        cases s with
        | nil => exact absurd rfl (h [] (by simp)).1
        | cons a t => exact ⟨a, t, rfl⟩
      have ha : a ≠ '/' := ((h (a :: t) (by simp)).2 a (by simp)).1
      cases rest with
      | nil =>
        rw [joinWithSlash]
        exact stripL_none _ (fun c hc => by simp [((h (a :: t) (by simp)).2 c hc).1])
      | cons s2 rest2 =>
        rw [joinWithSlash]
        show stripLeadingSlashes (a :: (t ++ '/' :: joinWithSlash (s2 :: rest2))) = _
        unfold stripLeadingSlashes
        rw [List.dropWhile_cons_of_neg (by simpa using ha)]
        rfl
  · induction parts with
    | nil => exact absurd rfl hne
    | cons s rest ih =>
      cases rest with
      | nil =>
        rw [joinWithSlash]
        exact stripT_none _ (fun c hc => by simp [((h s (by simp)).2 c hc).1])
      | cons s2 rest2 =>
        rw [joinWithSlash]
        apply stripT_append_slash
        · exact ih (by simp) (fun u hu => h u (by simp [hu]))
            (fun c hc => by
              rcases jws_chars (s2 :: rest2) c hc with h1 | ⟨u, hu, hcu⟩
              · subst h1; decide
              · exact ((h u (by simp [hu])).2 c hcu).2)
        · exact jws_ne_nil _ (by simp) (fun u hu => h u (by simp [hu]))

lemma removeFirstOcc_of_starts (s pat : Path) (h : listStartsWith s pat = true) :
    removeFirstOcc s pat = s.drop pat.length := by
  cases s with
  | nil =>
    cases pat with
    | nil => rfl
    | cons a ps => simp [listStartsWith] at h
  | cons c rest =>
    rw [removeFirstOcc, if_pos h]

lemma removeFirstOcc_append_self (pat v : Path) : removeFirstOcc (pat ++ v) pat = v := by
  rw [removeFirstOcc_of_starts _ _ (lsw_append pat v), List.drop_left]

lemma removeFirstOcc_first (pat v : Path) :
    ∀ u : Path,
      (∀ i, i < u.length → listStartsWith (List.drop i (u ++ pat ++ v)) pat = false) →
      removeFirstOcc (u ++ pat ++ v) pat = u ++ v := by
  intro u
  induction u with
  | nil => intro _; simpa using removeFirstOcc_append_self pat v
  | cons a u' ih =>
    intro h
    have h0 : listStartsWith (a :: (u' ++ pat ++ v)) pat = false := by
      have := h 0 (by simp)
      simpa using this
    have hrest : removeFirstOcc (u' ++ pat ++ v) pat = u' ++ v := by
      apply ih
      intro i hi
      have := h (i + 1) (by simp; omega)
      simpa [List.drop_succ_cons] using this
    show removeFirstOcc (a :: (u' ++ pat ++ v)) pat = a :: (u' ++ v)
    rw [removeFirstOcc, if_neg (by simpa using h0), hrest]

lemma removeFirstOcc_chars (s pat : Path) : ∀ c ∈ removeFirstOcc s pat, c ∈ s := by
  induction s with
  | nil => intro c hc; simp [removeFirstOcc] at hc
  | cons a rest ih =>
    intro c hc
    rw [removeFirstOcc] at hc
    by_cases h : listStartsWith (a :: rest) pat = true
    · rw [if_pos h] at hc
      exact List.mem_of_mem_drop hc
    · rw [if_neg h] at hc
      rcases List.mem_cons.mp hc with h1 | h2
      · simp [h1]
      · exact List.mem_cons_of_mem a (ih c h2)

lemma mem_beforeLastSlash (p : Path) (c : Char) (hc : c ∈ beforeLastSlash p) : c ∈ p := by
  unfold beforeLastSlash at hc
  rw [List.mem_reverse] at hc
  have h1 := List.mem_of_mem_drop hc
  have h2 := mem_dropWhile _ _ _ h1
  exact List.mem_reverse.mp h2

lemma mem_getFolderFromPath (p : Path) (c : Char) (hc : c ∈ getFolderFromPath p) : c ∈ p := by
  unfold getFolderFromPath at hc
  by_cases h1 : (!endsWithL p ".md".toList) = true
  · rw [if_pos h1] at hc; exact hc
  · rw [if_neg h1] at hc
    by_cases h2 : '/' ∉ p
    · rw [if_pos h2] at hc; simp at hc
    · rw [if_neg h2] at hc
      exact mem_beforeLastSlash p c hc

lemma mem_of_mem_dropLast {α : Type} (l : List α) (x : α) (h : x ∈ l.dropLast) : x ∈ l := by
  induction l with
  | nil => simp at h
  | cons a rest ih =>
    cases rest with
    | nil => simp at h
    | cons b rest2 =>
      rw [List.dropLast_cons₂, List.mem_cons] at h
      rcases h with h1 | h2
      · simp [h1]
      · exact List.mem_cons_of_mem a (ih h2)

lemma not_under_of_above (g sf j : Path)
    (hcond : g = sf ∨ listStartsWith g (sf ++ ['/']) = false) :
    underPath g (sf ++ '/' :: j) = false := by
  unfold underPath
  rw [Bool.or_eq_false_iff]
  constructor
  · rw [decide_eq_false_iff_not]
    intro hgq
    rcases hcond with h1 | h2
    · rw [h1] at hgq
      have := congrArg List.length hgq
      simp at this
    · have htrue : listStartsWith (sf ++ '/' :: j) (sf ++ ['/']) = true := by
        rw [show sf ++ '/' :: j = (sf ++ ['/']) ++ j by simp]
        exact lsw_append _ _
      rw [← hgq, h2] at htrue
      exact Bool.false_ne_true htrue
  · rcases hcond with h1 | h2
    · subst h1
      cases hb : listStartsWith g ((g ++ '/' :: j) ++ ['/']) with
      | false => rfl
      | true =>
        have hlen := lsw_length _ _ hb
        simp at hlen
    · cases hb : listStartsWith g ((sf ++ '/' :: j) ++ ['/']) with
      | false => rfl
      | true =>
        have : listStartsWith g (sf ++ ['/']) = true := by
          apply lsw_of_append g (sf ++ ['/']) (j ++ ['/'])
          rw [show (sf ++ ['/']) ++ (j ++ ['/']) = (sf ++ '/' :: j) ++ ['/'] by simp]
          exact hb
        rw [h2] at this
        exact absurd this (by simp)

lemma pruneVisit_keeps_folder (v : Vault) (cfg : ArchiveConfig) (parts : List Path)
    (hsf : cleanRoot cfg.sourceFolder) (hparts : ∀ s ∈ parts, cleanSeg s) (hne : parts ≠ [])
    (g : Path) (hg : g ∈ v.folders)
    (hcond : g = cfg.sourceFolder ∨ listStartsWith g (cfg.sourceFolder ++ ['/']) = false) :
    g ∈ (pruneVisit v cfg parts).folders := by
  unfold pruneVisit
  by_cases hdel :
      folderExists v (joinPaths cfg.sourceFolder (joinWithSlash parts)) ∧
        childCount v (joinPaths cfg.sourceFolder (joinWithSlash parts)) = 0
  · rw [if_pos hdel]
    have hjws := jws_clean parts hne hparts
    have hq : joinPaths cfg.sourceFolder (joinWithSlash parts) =
        cfg.sourceFolder ++ '/' :: joinWithSlash parts :=
      joinPaths_clean _ _ hsf.2.1 hsf.2.2 hsf.1 hjws.1 hjws.2.1 hjws.2.2
        (jws_ne_nil parts hne hparts)
    unfold deleteFolderRec
    apply List.mem_filter.mpr
    refine ⟨hg, ?_⟩
    rw [hq, not_under_of_above g cfg.sourceFolder (joinWithSlash parts) hcond]
    rfl
  · rw [if_neg hdel]
    exact hg

lemma pruneLoop_keeps_folder (cfg : ArchiveConfig) (hsf : cleanRoot cfg.sourceFolder) :
    ∀ (n : Nat) (parts : List Path) (v : Vault) (g : Path),
      n ≤ parts.length → (∀ s ∈ parts, cleanSeg s) → g ∈ v.folders →
      (g = cfg.sourceFolder ∨ listStartsWith g (cfg.sourceFolder ++ ['/']) = false) →
      g ∈ (pruneLoop cfg n v parts).folders := by
  intro n
  induction n with
  | zero => intro parts v g _ _ hg _; exact hg
  | succ m ih =>
    intro parts v g hlen hparts hg hcond
    rw [pruneLoop]
    apply ih
    · have : parts.dropLast.length = parts.length - 1 := by simp
      omega
    · intro s hs; exact hparts s (mem_of_mem_dropLast _ _ hs)
    · apply pruneVisit_keeps_folder v cfg parts hsf hparts _ g hg hcond
      intro hnil
      rw [hnil] at hlen
      simp at hlen
    · exact hcond

lemma deleteEmptyFolders_keeps (v : Vault) (f : FileEntry) (cfg : ArchiveConfig)
    (hsf : cleanRoot cfg.sourceFolder) (hf : ∀ c ∈ f.path, Char.isWhitespace c = false)
    (g : Path) (hg : g ∈ v.folders)
    (hcond : g = cfg.sourceFolder ∨ listStartsWith g (cfg.sourceFolder ++ ['/']) = false) :
    g ∈ (deleteEmptyFolders v f cfg).folders := by
  unfold deleteEmptyFolders
  have hclean : ∀ s ∈ splitPathString
      (getFolderFromPath (getFilePathInSourceFolder f.path cfg.sourceFolder)), cleanSeg s := by
    apply splitPathString_clean
    intro c hc
    exact hf c (removeFirstOcc_chars _ _ c (mem_getFolderFromPath _ c hc))
  by_cases hlen : 0 < (splitPathString
      (getFolderFromPath (getFilePathInSourceFolder f.path cfg.sourceFolder))).length
  · rw [if_pos hlen]
    exact pruneLoop_keeps_folder cfg hsf _ _ v g le_rfl hclean hg hcond
  · rw [if_neg hlen]
    exact hg

lemma fileExists_deleteFileAt (v : Vault) (p : Path) : ¬ fileExists (deleteFileAt v p) p := by
  intro h
  obtain ⟨f, hf, hp⟩ := List.mem_map.mp h
  have h2 := (List.mem_filter.mp hf).2
  rw [decide_eq_true_iff] at h2
  exact h2 hp

lemma fileExists_pruneVisit (v : Vault) (cfg : ArchiveConfig) (parts : List Path) (p : Path)
    (h : fileExists (pruneVisit v cfg parts) p) : fileExists v p := by
  simp only [pruneVisit] at h
  split at h
  · obtain ⟨f, hf, hp⟩ := List.mem_map.mp h
    exact List.mem_map.mpr ⟨f, (List.mem_filter.mp hf).1, hp⟩
  · exact h

lemma fileExists_pruneLoop (cfg : ArchiveConfig) :
    ∀ (n : Nat) (parts : List Path) (v : Vault) (p : Path),
      fileExists (pruneLoop cfg n v parts) p → fileExists v p := by
  intro n
  induction n with
  | zero => intro parts v p h; exact h
  | succ m ih =>
    intro parts v p h
    rw [pruneLoop] at h
    exact fileExists_pruneVisit _ _ _ _ (ih _ _ _ h)

lemma fileExists_deleteEmptyFolders (v : Vault) (f : FileEntry) (cfg : ArchiveConfig) (p : Path)
    (h : fileExists (deleteEmptyFolders v f cfg) p) : fileExists v p := by
  simp only [deleteEmptyFolders] at h
  split at h
  · exact fileExists_pruneLoop cfg _ _ v p h
  · exact h

/-- C2: shouldFileBeArchived compares the creation timestamp strictly against the
cutoff instant now - days*86400000 ms: a file created exactly at the cutoff is NOT
eligible, and a file created one millisecond earlier IS eligible. -/
theorem c2_eligibility_strict_boundary (p : Path) (cfg : ArchiveConfig) (now : Int) :
    shouldFileBeArchived ⟨p, now - NUM_MS_IN_DAY * cfg.days⟩ cfg now = false ∧
      shouldFileBeArchived ⟨p, now - NUM_MS_IN_DAY * cfg.days - 1⟩ cfg now = true := by
  constructor <;>
    simp only [shouldFileBeArchived, NUM_MS_IN_DAY, decide_eq_false_iff_not,
      decide_eq_true_eq] <;>
    omega

/-- C10: eligibility is monotone in the age threshold: if shouldFileBeArchived
holds for a rule with days = d, it also holds for the otherwise-identical rule
with any positive days d' ≤ d. -/
theorem c10_eligibility_monotone (f : FileEntry) (cfg : ArchiveConfig) (now : Int) (d : Int)
    (_hd : 0 < d) (hle : d ≤ cfg.days)
    (h : shouldFileBeArchived f cfg now = true) :
    shouldFileBeArchived f
      ⟨cfg.sourceFolder, cfg.destFolder, cfg.maintainFolderStructure,
        cfg.deleteEmptyFolders, d⟩ now = true := by
  simp only [shouldFileBeArchived, NUM_MS_IN_DAY, decide_eq_true_eq] at h ⊢
  omega

theorem c10_witness :
    shouldFileBeArchived exampleFile
      ⟨exampleCfgMaintain.sourceFolder, exampleCfgMaintain.destFolder,
        exampleCfgMaintain.maintainFolderStructure, exampleCfgMaintain.deleteEmptyFolders, 1⟩
      exampleNow = true :=
  c10_eligibility_monotone exampleFile exampleCfgMaintain exampleNow 1
    (by decide) (by decide) (by decide)

/-- C6 counterexample: the idempotence identity of the claim fails as stated.
With a = "x /" and b = "", joinPaths(a,b) = "x " (slash-stripping exposes a
trailing space that trimming alone had not removed), and a second application
trims it further to "x". -/
theorem c6_counterexample :
    joinPaths (joinPaths "x /".toList "".toList) "".toList ≠
      joinPaths "x /".toList "".toList := by
  decide

/-- C6 (amended): joinPaths strips trailing slashes from its trimmed first argument
and leading/trailing slashes from its trimmed second argument, returns "" when both
are empty after trimming and stripping, returns the other argument (trimmed and
slash-stripped) when exactly one is empty, and otherwise joins with a single "/";
joinPaths("","") = "", and joinPaths(joinPaths(a,b), "") = joinPaths(a,b) for all
a, b whose join is unchanged by whitespace-trimming (without that proviso the
identity fails, since slash-stripping can expose whitespace that a second
application then trims). -/
theorem c6_joinPaths_algebra :
    (∀ a b : Path, stripTrailingSlashes (jsTrim a) = [] →
        joinPaths a b = stripTrailingSlashes (stripLeadingSlashes (jsTrim b))) ∧
      (∀ a b : Path, stripTrailingSlashes (stripLeadingSlashes (jsTrim b)) = [] →
        stripTrailingSlashes (jsTrim a) ≠ [] →
        joinPaths a b = stripTrailingSlashes (jsTrim a)) ∧
      (∀ a b : Path, stripTrailingSlashes (jsTrim a) ≠ [] →
        stripTrailingSlashes (stripLeadingSlashes (jsTrim b)) ≠ [] →
        joinPaths a b =
          stripTrailingSlashes (jsTrim a) ++ '/' ::
            stripTrailingSlashes (stripLeadingSlashes (jsTrim b))) ∧
      joinPaths [] [] = [] ∧
      (∀ a b : Path, jsTrim (joinPaths a b) = joinPaths a b →
        joinPaths (joinPaths a b) [] = joinPaths a b) := by
  refine ⟨?_, ?_, ?_, by decide, ?_⟩
  · intro a b h
    unfold joinPaths
    rw [h]
    by_cases e : stripTrailingSlashes (stripLeadingSlashes (jsTrim b)) = [] <;> simp [e]
  · intro a b h hne
    unfold joinPaths
    rw [h]
    simp [hne]
  · intro a b h1 h2
    unfold joinPaths
    simp [h1, h2]
  · intro a b h
    exact joinPaths_nil_right _ h (stripT_joinPaths a b)

theorem c6_witness :
    joinPaths (joinPaths "a".toList "b".toList) [] = joinPaths "a".toList "b".toList :=
  c6_joinPaths_algebra.2.2.2.2 "a".toList "b".toList (by decide)

/-- C9: joinPaths also trims leading and trailing whitespace from both of its
arguments before joining (a normalization beyond the slash-stripping the spec
describes); an all-whitespace argument is treated as empty. -/
theorem c9_joinPaths_trims_whitespace :
    joinPaths "  a  ".toList " b ".toList = "a/b".toList ∧
      (∀ (w p : Path), (∀ c ∈ w, Char.isWhitespace c = true) →
        joinPaths w p = joinPaths [] p ∧ joinPaths p w = joinPaths p []) := by
  refine ⟨by decide, ?_⟩
  intro w p hw
  have ht : jsTrim w = jsTrim [] := by rw [jsTrim_all_ws w hw]; rfl
  constructor
  · unfold joinPaths
    rw [ht]
  · unfold joinPaths
    rw [ht]

theorem c9_witness :
    joinPaths "  ".toList "x".toList = joinPaths [] "x".toList :=
  (c9_joinPaths_trims_whitespace.2 "  ".toList "x".toList (by decide)).1

/-- C7: getFilePathInSourceFolder removes the first textual occurrence of the
source folder string from the file path (a substring removal, not a
prefix-anchored strip): whenever the shown occurrence of pat in u ++ pat ++ v is
the first one, the result is u ++ v; in particular a mid-string occurrence is
removed, so when the source folder name recurs elsewhere in the path the result is
not the path relative to the source root. -/
theorem c7_substring_removal :
    (∀ (u pat v : Path),
        (∀ i, i < u.length → listStartsWith (List.drop i (u ++ pat ++ v)) pat = false) →
        getFilePathInSourceFolder (u ++ pat ++ v) pat = u ++ v) ∧
      getFilePathInSourceFolder "Work/Notes/31.md".toList "Notes".toList =
        "Work//31.md".toList ∧
      getFilePathInSourceFolder "Work/Notes/31.md".toList "Notes".toList ≠
        "Work/31.md".toList := by
  refine ⟨?_, by decide, by decide⟩
  intro u pat v h
  exact removeFirstOcc_first pat v u h

theorem c7_witness :
    getFilePathInSourceFolder ("ab".toList ++ "cd".toList ++ "ef".toList) "cd".toList =
      "ab".toList ++ "ef".toList :=
  c7_substring_removal.1 "ab".toList "cd".toList "ef".toList (by decide)

/-- C1: for every eligible source file, processSourceFile deletes the original file
after the copy attempt regardless of whether the copy succeeded (copy failures are
swallowed), so after the step the file is never present in both its source
location and the computed destination. -/
theorem c1_source_deleted_unconditionally (v : Vault) (f : FileEntry) (cfg : ArchiveConfig)
    (now : Int) (h : shouldFileBeArchived f cfg now = true) :
    ¬ fileExists (processSourceFile v f cfg now) f.path ∧
      ¬ (fileExists (processSourceFile v f cfg now) f.path ∧
          fileExists (processSourceFile v f cfg now) (computeDestPath cfg f.path)) := by
  have base : ∀ w : Vault,
      ¬ fileExists
          (if cfg.deleteEmptyFolders then deleteEmptyFolders (deleteFileAt w f.path) f cfg
           else deleteFileAt w f.path) f.path := by
    intro w hex
    split at hex
    · exact fileExists_deleteFileAt w f.path (fileExists_deleteEmptyFolders _ _ _ _ hex)
    · exact fileExists_deleteFileAt w f.path hex
  have hmain : ¬ fileExists (processSourceFile v f cfg now) f.path := by
    unfold processSourceFile
    rw [if_pos h]
    exact base _
  exact ⟨hmain, fun hcontra => hmain hcontra.1⟩

theorem c1_witness :
    ¬ fileExists
        (processSourceFile exampleVaultMaintain exampleFile exampleCfgMaintain exampleNow)
        exampleFile.path :=
  (c1_source_deleted_unconditionally exampleVaultMaintain exampleFile exampleCfgMaintain
    exampleNow (by decide)).1

/-- C3: the prune walk only ever deletes folders strictly below the rule's
sourceFolder (for a well-formed root and a whitespace-free file path every folder
that is the sourceFolder itself, or outside its subtree, survives regardless of
emptiness), and on the spec §8 example it walks deepest-first deleting exactly the
visited folders that have zero children: "December" and then "2023" when both are
empty, but "2023" survives when a sibling note remains, and "Notes" survives
always. -/
theorem c3_prune_walk_scope :
    (∀ (v : Vault) (f : FileEntry) (cfg : ArchiveConfig),
        cleanRoot cfg.sourceFolder →
        (∀ c ∈ f.path, Char.isWhitespace c = false) →
        ∀ g ∈ v.folders,
          (g = cfg.sourceFolder ∨ listStartsWith g (cfg.sourceFolder ++ ['/']) = false) →
          g ∈ (deleteEmptyFolders v f cfg).folders) ∧
      deleteEmptyFolders exampleVaultPruneA exampleFile exampleCfgPrune =
        ⟨[], ["Notes".toList, "Archive".toList]⟩ ∧
      deleteEmptyFolders exampleVaultPruneB exampleFile exampleCfgPrune =
        ⟨[⟨"Notes/2023/keep.md".toList, 0⟩],
          ["Notes".toList, "Notes/2023".toList, "Archive".toList]⟩ := by
  refine ⟨?_, by decide, by decide⟩
  intro v f cfg hsf hf g hg hcond
  exact deleteEmptyFolders_keeps v f cfg hsf hf g hg hcond

theorem c3_witness :
    "Notes".toList ∈
      (deleteEmptyFolders exampleVaultPruneA exampleFile exampleCfgPrune).folders :=
  c3_prune_walk_scope.1 exampleVaultPruneA exampleFile exampleCfgPrune (by decide) (by decide)
    "Notes".toList (by decide) (by decide)

/-- C4: the destination path is deterministic in (sourceFolder, destFolder,
maintainFolderStructure, file path): structure-preserving yields
joinPaths(destFolder, path relative to sourceFolder) with the intermediate folders
created first, flattened yields joinPaths(destFolder, file name); on the spec §8
example the results are "Archive/2023/December/31.md" (with "Archive",
"Archive/2023" and "Archive/2023/December" created) and "Archive/31.md". -/
theorem c4_destination_deterministic :
    (∀ (c c' : ArchiveConfig) (p : Path),
        c.sourceFolder = c'.sourceFolder → c.destFolder = c'.destFolder →
        c.maintainFolderStructure = c'.maintainFolderStructure →
        computeDestPath c p = computeDestPath c' p) ∧
      (∀ (c : ArchiveConfig) (p : Path), c.maintainFolderStructure = true →
        computeDestPath c p =
          joinPaths c.destFolder (getFilePathInSourceFolder p c.sourceFolder)) ∧
      (∀ (c : ArchiveConfig) (p : Path), c.maintainFolderStructure = false →
        computeDestPath c p = joinPaths c.destFolder (nameOf p)) ∧
      computeDestPath exampleCfgMaintain "Notes/2023/December/31.md".toList =
        "Archive/2023/December/31.md".toList ∧
      computeDestPath exampleCfgFlat "Notes/2023/December/31.md".toList =
        "Archive/31.md".toList ∧
      processSourceFile exampleVaultMaintain exampleFile exampleCfgMaintain exampleNow =
        ⟨[⟨"Archive/2023/December/31.md".toList, 0⟩],
          ["Notes".toList, "Notes/2023".toList, "Notes/2023/December".toList,
            "Archive".toList, "Archive/2023".toList, "Archive/2023/December".toList]⟩ ∧
      processSourceFile exampleVaultFlat exampleFile exampleCfgFlat exampleNow =
        ⟨[⟨"Archive/31.md".toList, 0⟩],
          ["Notes".toList, "Notes/2023".toList, "Notes/2023/December".toList,
            "Archive".toList]⟩ := by
  refine ⟨?_, ?_, ?_, by decide, by decide, by decide, by decide⟩
  · intro c c' p h1 h2 h3
    unfold computeDestPath
    rw [h1, h2, h3]
  · intro c p h
    simp [computeDestPath, h]
  · intro c p h
    simp [computeDestPath, h]

theorem c4_witness :
    computeDestPath exampleCfgMaintain "Notes/a.md".toList =
      joinPaths exampleCfgMaintain.destFolder
        (getFilePathInSourceFolder "Notes/a.md".toList exampleCfgMaintain.sourceFolder) :=
  c4_destination_deterministic.2.1 exampleCfgMaintain "Notes/a.md".toList (by decide)

/-- C5: a rule whose sourceFolder or destFolder is empty after trimming whitespace
is excluded from the valid-rule list and produces no store operation and no
warning in processVault, while remaining in the stored rule list. -/
theorem c5_invalid_rule_excluded (v : Vault) (now : Int)
    (cfgs1 cfgs2 : List ArchiveConfig) (bad : ArchiveConfig)
    (hbad : jsTrim bad.sourceFolder = [] ∨ jsTrim bad.destFolder = []) :
    getValidArchiveConfigs (cfgs1 ++ bad :: cfgs2) = getValidArchiveConfigs (cfgs1 ++ cfgs2) ∧
      processVault v (cfgs1 ++ bad :: cfgs2) now = processVault v (cfgs1 ++ cfgs2) now ∧
      bad ∈ cfgs1 ++ bad :: cfgs2 := by
  have hfalse : isValidConfig bad = false := by
    unfold isValidConfig
    rcases hbad with h | h <;> simp [h]
  have hv : getValidArchiveConfigs (cfgs1 ++ bad :: cfgs2) =
      getValidArchiveConfigs (cfgs1 ++ cfgs2) := by
    unfold getValidArchiveConfigs
    rw [List.filter_append, List.filter_append]
    simp [List.filter_cons, hfalse]
  refine ⟨hv, ?_, by simp⟩
  unfold processVault
  rw [hv]

theorem c5_witness :
    getValidArchiveConfigs
        ([] ++ (⟨"   ".toList, "Archive".toList, true, true, 30⟩ : ArchiveConfig) :: []) =
      getValidArchiveConfigs ([] ++ []) :=
  (c5_invalid_rule_excluded ⟨[], []⟩ 0 [] []
    ⟨"   ".toList, "Archive".toList, true, true, 30⟩ (Or.inl (by decide))).1

/-- C8: during a scan, a valid rule whose sourceFolder does not resolve to a folder
logs a warning and is skipped with no file operations, and the scan continues with
the next rule. -/
theorem c8_unresolved_source_skipped :
    (∀ (v : Vault) (ws : List Path) (cfg : ArchiveConfig) (now : Int),
        ¬ folderExists v cfg.sourceFolder →
        processRule (v, ws) cfg now = (v, ws ++ [cfg.sourceFolder])) ∧
      (∀ (v : Vault) (bad c2 : ArchiveConfig) (now : Int),
        isValidConfig bad = true → isValidConfig c2 = true →
        ¬ folderExists v bad.sourceFolder →
        processVault v [bad, c2] now = processRule (v, [bad.sourceFolder]) c2 now) := by
  have hskip : ∀ (v : Vault) (ws : List Path) (cfg : ArchiveConfig) (now : Int),
      ¬ folderExists v cfg.sourceFolder →
      processRule (v, ws) cfg now = (v, ws ++ [cfg.sourceFolder]) := by
    intro v ws cfg now h
    unfold processRule
    rw [if_neg h]
  refine ⟨hskip, ?_⟩
  intro v bad c2 now h1 h2 h3
  unfold processVault
  rw [show getValidArchiveConfigs [bad, c2] = [bad, c2] by
    unfold getValidArchiveConfigs
    simp [List.filter_cons, h1, h2]]
  rw [List.foldl_cons, List.foldl_cons, List.foldl_nil, hskip v [] bad now h3,
    List.nil_append]

theorem c8_witness :
    processRule ((⟨[], []⟩ : Vault), ([] : List Path)) exampleCfgMaintain 0 =
      ((⟨[], []⟩ : Vault), [] ++ [exampleCfgMaintain.sourceFolder]) :=
  c8_unresolved_source_skipped.1 ⟨[], []⟩ [] exampleCfgMaintain 0 (by decide)

end AutoArchive
